import Mathlib

/-!
# Verification of the expression pipeline in `lab1-code/parser.py`

Shallow embedding of the tokenizer (`Lexer`), the recursive-descent parser
(`Parser`) and the AST evaluator of the repository.  Characters are Lean
`Char`s restricted to the ASCII classes the source manipulates; Python's
arbitrary-precision `int` is `Int`, and Python `float` values arising from
decimal literals are modelled as exact rationals (no claim under scrutiny
depends on binary rounding).  Fallible Python code (raising `ValueError`,
`AttributeError`, or the evaluator's division-by-zero error) is modelled
with `Except Err`.  The parser's `while`-loop cursor recursion is embedded
with an explicit fuel parameter; the fuel bound `4 * tokens + 8` is proved
sufficient, so the `outOfFuel` constructor is an artifact that provably
never escapes the entry points.
-/

/-- Token types, mirroring `TokenType` in `parser.py`. -/
inductive TokenType where
  | NUMBER
  | PLUS
  | MINUS
  | MULTIPLY
  | DIVIDE
  | LPAREN
  | RPAREN
  | EOF
deriving DecidableEq

/-- The `.value` string of each member of the Python `TokenType` enum. -/
def TokenType.str : TokenType → String
  | .NUMBER => "NUMBER"
  | .PLUS => "PLUS"
  | .MINUS => "MINUS"
  | .MULTIPLY => "MULTIPLY"
  | .DIVIDE => "DIVIDE"
  | .LPAREN => "LPAREN"
  | .RPAREN => "RPAREN"
  | .EOF => "EOF"

/-- A numeric value: Python `int` or Python `float` (decimal literals are
exact in the model, as rationals). -/
inductive Value where
  | int (n : Int)
  | dec (q : ℚ)
deriving DecidableEq

/-- Payload of `Token.value` in the source: a number for NUMBER tokens, the
operator character for operator tokens, and Python `None` for EOF. -/
inductive TokVal where
  | num (v : Value)
  | sym (c : Char)
  | none
deriving DecidableEq

/-- Mirror of the `Token` class: type, value, zero-based source offset. -/
structure Token where
  type : TokenType
  value : TokVal
  position : Nat
deriving DecidableEq

/-- The AST constructors imported from `calculator` by `parser.py`
(`Num`, `Add`, `Minus`, `Multi`, `Div`, `Par`).  `Num` stores the token's
payload exactly as the source stores `self.current_token.value`. -/
inductive Expr where
  | Num (v : TokVal)
  | Add (l r : Expr)
  | Minus (l r : Expr)
  | Multi (l r : Expr)
  | Div (l r : Expr)
  | Par (e : Expr)
deriving DecidableEq

/-- Every failure mode of the pipeline.  The first four model the
`ValueError`s raised by `parser.py` (`floatConv` is the `ValueError` that
Python's `float()` raises on a lexeme such as `3..5`); `attrNone` models the
`AttributeError` that `parse_factor` would raise if the token cursor were
exhausted (`self.current_token.type` with `current_token = None`);
`outOfFuel` is an artifact of the fuel embedding, proved unreachable from
the entry points; the last two belong to the evaluator. -/
inductive Err where
  | invalidChar (c : Char) (pos : Nat)
  | floatConv (s : List Char)
  | expectedToken (expected actual : String)
  | unexpectedToken (t : Token)
  | attrNone
  | outOfFuel
  | divisionByZero
  | typeError
deriving DecidableEq

instance {ε α : Type} [DecidableEq ε] [DecidableEq α] : DecidableEq (Except ε α) := fun
  | .ok a, .ok b =>
    if h : a = b then isTrue (by rw [h]) else isFalse (by intro hc; cases hc; exact h rfl)
  | .error a, .error b =>
    if h : a = b then isTrue (by rw [h]) else isFalse (by intro hc; cases hc; exact h rfl)
  | .ok _, .error _ => isFalse (by intro hc; cases hc)
  | .error _, .ok _ => isFalse (by intro hc; cases hc)

/-- `self.current_char`: the character under the cursor, `None` past the end. -/
def charAt (text : List Char) (pos : Nat) : Option Char :=
  text.get? pos

/-- Characters `read_number` consumes: digits and the decimal point. -/
def isNumChar (c : Char) : Bool :=
  c.isDigit || c = '.'

/-- `Lexer.skip_whitespace`: the cursor after skipping the maximal
whitespace run starting at `pos` (the `while`/`advance` loop consumes
exactly that run). -/
def skip_whitespace (text : List Char) (pos : Nat) : Nat :=
  pos + ((text.drop pos).takeWhile (fun c => c.isWhitespace)).length

/-- Python `int()` on a nonempty string of ASCII digits. -/
def digitsToNat (s : List Char) : Nat :=
  s.foldl (fun a c => 10 * a + (c.toNat - 48)) 0

/-- Python `float()` on a string of digits and dots: defined exactly when at
most one `.` and at least one digit are present; the value is the standard
decimal reading (exact, as a rational). -/
def pyFloat (s : List Char) : Option ℚ :=
  if s.count '.' ≤ 1 ∧ s.any Char.isDigit then
    let ip := s.takeWhile (fun c => c ≠ '.')
    let fp := (s.dropWhile (fun c => c ≠ '.')).tail
    some ((digitsToNat ip : ℚ) + (digitsToNat fp : ℚ) / 10 ^ fp.length)
  else
    Option.none

/-- The maximal contiguous run of digits and dots starting at `pos` — the
`num_str` accumulated by `read_number`'s `while`/`advance` loop. -/
def numRun (text : List Char) (pos : Nat) : List Char :=
  (text.drop pos).takeWhile isNumChar

/-- `Lexer.read_number`: accumulate the maximal contiguous run of digits and
dots starting at `pos` (the `while`/`advance` loop builds `num_str` from
exactly that run, with no validation), then convert — `float(num_str)` when a
dot is present (which raises `ValueError`, here `floatConv`, on a malformed
lexeme), `int(num_str)` otherwise.  Returns the token (positioned at
`start_pos = pos`) and the new cursor. -/
def read_number (text : List Char) (pos : Nat) : Except Err (Token × Nat) :=
  let num_str := numRun text pos
  if num_str.contains '.' then
    match pyFloat num_str with
    | some q => .ok (⟨.NUMBER, .num (.dec q), pos⟩, pos + num_str.length)
    | Option.none => .error (.floatConv num_str)
  else
    .ok (⟨.NUMBER, .num (.int (digitsToNat num_str)), pos⟩, pos + num_str.length)

/-- `Lexer.get_next_token`.  The source's `while current_char is not None`
loop performs at most one `skip_whitespace` pass (after which the current
character is non-whitespace or `None`) before dispatching, so it is embedded
as one skip followed by the dispatch; offsets: each single-character token is
positioned where it starts and the cursor advances past it. -/
def get_next_token (text : List Char) (pos : Nat) : Except Err (Token × Nat) :=
  let p := skip_whitespace text pos
  match charAt text p with
  | Option.none => .ok (⟨.EOF, .none, p⟩, p)
  | some c =>
    if c.isDigit then read_number text p
    else if c = '+' then .ok (⟨.PLUS, .sym '+', p⟩, p + 1)
    else if c = '-' then .ok (⟨.MINUS, .sym '-', p⟩, p + 1)
    else if c = '*' then .ok (⟨.MULTIPLY, .sym '*', p⟩, p + 1)
    else if c = '/' then .ok (⟨.DIVIDE, .sym '/', p⟩, p + 1)
    else if c = '(' then .ok (⟨.LPAREN, .sym '(', p⟩, p + 1)
    else if c = ')' then .ok (⟨.RPAREN, .sym ')', p⟩, p + 1)
    else .error (.invalidChar c p)

/-- The `while True` loop of `Lexer.tokenize`, with fuel.  Each non-EOF token
strictly advances the cursor, so `text.length + 1` units of fuel suffice
(proved below); `outOfFuel` never escapes `Lexer.tokenize`. -/
def tokenizeF : Nat → List Char → Nat → Except Err (List Token)
  | 0, _, _ => .error .outOfFuel
  | fuel + 1, text, pos =>
    match get_next_token text pos with
    | .error e => .error e
    | .ok (t, p) =>
      if t.type = .EOF then .ok [t]
      else
        match tokenizeF fuel text p with
        | .error e => .error e
        | .ok ts => .ok (t :: ts)

/-- `Lexer.tokenize`: tokenize the whole input starting at offset 0. -/
def Lexer.tokenize (text : List Char) : Except Err (List Token) :=
  tokenizeF (text.length + 1) text 0





/-! ## Parser

The `Parser` class keeps an index cursor into the token list with
`current_token = tokens[position] if position < len(tokens) else None`;
the embedding carries the suffix of unconsumed tokens instead, so
`current_token` is the head of the suffix and `advance` is `tail`. -/

/-- `Parser.expect`: consume the current token if its type matches, else
raise `ValueError` naming the expected kind and the actual kind (the string
`"EOF"` when the cursor is exhausted, i.e. `current_token is None`). -/
def Parser.expect (token_type : TokenType) (ts : List Token) :
    Except Err (Token × List Token) :=
  match ts with
  | t :: rest =>
    if t.type = token_type then .ok (t, rest)
    else .error (.expectedToken token_type.str t.type.str)
  | [] => .error (.expectedToken token_type.str "EOF")

/-- Call tags for the mutually recursive productions of the parser:
`expr`/`term`/`factor` are `parse_expression`/`parse_term`/`parse_factor`,
and `exprLoop`/`termLoop` are their operator-folding `while` loops with the
running left operand. -/
inductive PCall where
  | expr (ts : List Token)
  | exprLoop (left : Expr) (ts : List Token)
  | term (ts : List Token)
  | termLoop (left : Expr) (ts : List Token)
  | factor (ts : List Token)

/-- The token suffix a call starts from. -/
def PCall.toks : PCall → List Token
  | .expr ts => ts
  | .exprLoop _ ts => ts
  | .term ts => ts
  | .termLoop _ ts => ts
  | .factor ts => ts

/-- The three productions of the recursive-descent parser, with fuel
(decremented at every call, making the recursion structural).  `parseF`
returns the parsed node and the unconsumed suffix.

* `expr` — `parse_expression`: one `parse_term`, then the `+`/`-` fold loop;
* `exprLoop` — the loop body: while the current token is PLUS or MINUS,
  consume it, parse another term, fold into `Add`/`Minus` (left operand of
  the next iteration); a `None` cursor (empty suffix) exits the loop;
* `term`/`termLoop` — same shape over `parse_factor` with `Multi`/`Div`;
* `factor` — `parse_factor`: NUMBER gives `Num (token value)`; LPAREN
  parses a full expression, `expect`s RPAREN and wraps in `Par`; an empty
  suffix reproduces Python's `AttributeError` on `current_token.type`
  (`attrNone`); anything else raises `ValueError` (`unexpectedToken`). -/
def parseF : Nat → PCall → Except Err (Expr × List Token)
  | 0, _ => .error .outOfFuel
  | fuel + 1, .expr ts =>
    match parseF fuel (.term ts) with
    | .error e => .error e
    | .ok (left, r) => parseF fuel (.exprLoop left r)
  | fuel + 1, .exprLoop left ts =>
    match ts with
    | [] => .ok (left, ts)
    | op :: rest =>
      if op.type = .PLUS ∨ op.type = .MINUS then
        match parseF fuel (.term rest) with
        | .error e => .error e
        | .ok (right, r) =>
          parseF fuel
            (.exprLoop (if op.type = .PLUS then .Add left right else .Minus left right) r)
      else .ok (left, ts)
  | fuel + 1, .term ts =>
    match parseF fuel (.factor ts) with
    | .error e => .error e
    | .ok (left, r) => parseF fuel (.termLoop left r)
  | fuel + 1, .termLoop left ts =>
    match ts with
    | [] => .ok (left, ts)
    | op :: rest =>
      if op.type = .MULTIPLY ∨ op.type = .DIVIDE then
        match parseF fuel (.factor rest) with
        | .error e => .error e
        | .ok (right, r) =>
          parseF fuel
            (.termLoop (if op.type = .MULTIPLY then .Multi left right else .Div left right) r)
      else .ok (left, ts)
  | fuel + 1, .factor ts =>
    match ts with
    | [] => .error .attrNone
    | t :: rest =>
      if t.type = .NUMBER then .ok (.Num t.value, rest)
      else if t.type = .LPAREN then
        match parseF fuel (.expr rest) with
        | .error e => .error e
        | .ok (e, r) =>
          match Parser.expect .RPAREN r with
          | .error e2 => .error e2
          | .ok (_, r2) => .ok (.Par e, r2)
      else .error (.unexpectedToken t)

/-- Fuel that provably suffices for a call (established below): the parser
always terminates, so any sufficient budget yields its unique result. -/
def PCall.bound : PCall → Nat
  | .expr ts => 4 * ts.length + 8
  | .term ts => 4 * ts.length + 7
  | .factor ts => 4 * ts.length + 6
  | .exprLoop _ ts => 4 * ts.length + 5
  | .termLoop _ ts => 4 * ts.length + 5

/-- How many tokens a call is guaranteed to consume when it succeeds: the
productions consume at least the token their first factor starts with; the
folding loops may consume nothing. -/
def PCall.minConsume : PCall → Nat
  | .expr _ => 1
  | .term _ => 1
  | .factor _ => 1
  | .exprLoop _ _ => 0
  | .termLoop _ _ => 0

/-- `Parser.parse_expression` on a token suffix. -/
def Parser.parse_expression (ts : List Token) : Except Err (Expr × List Token) :=
  parseF (PCall.expr ts).bound (.expr ts)

/-- `Parser.parse_term` on a token suffix. -/
def Parser.parse_term (ts : List Token) : Except Err (Expr × List Token) :=
  parseF (PCall.term ts).bound (.term ts)

/-- `Parser.parse_factor` on a token suffix. -/
def Parser.parse_factor (ts : List Token) : Except Err (Expr × List Token) :=
  parseF (PCall.factor ts).bound (.factor ts)

/-- `Parser.parse`: parse one expression, then require the cursor to stand
at EOF (`None`, i.e. an exhausted cursor, is also accepted by the source's
`if self.current_token and ...` guard); any other remaining token raises
`ValueError` ("Unexpected token"). -/
def Parser.parse (ts : List Token) : Except Err Expr :=
  match Parser.parse_expression ts with
  | .error e => .error e
  | .ok (expr, rest) =>
    match rest with
    | t :: _ => if t.type ≠ .EOF then .error (.unexpectedToken t) else .ok expr
    | [] => .ok expr

/-- `parse_expression_from_string`: tokenize, then parse. -/
def parse_expression_from_string (s : String) : Except Err Expr :=
  match Lexer.tokenize s.data with
  | .error e => .error e
  | .ok tokens => Parser.parse tokens






/-! ## Evaluator

`parser.py` imports the AST constructors and `eval_value` from
`calculator.py`, which is not part of the sources; the evaluator below is
modelled from the specification. -/

/-- The numeric content of a value, as a rational. -/
def Value.toRat : Value → ℚ
  | .int n => (n : ℚ)
  | .dec q => q

/-- Exact zero, integer or decimal. -/
def Value.isZero : Value → Bool
  | .int n => n = 0
  | .dec q => q = 0

/-- Modelled from the spec: numeric promotion for `+`, `-`, `*` — if both
operands are exact integers the result is the exact integer combination,
otherwise the decimal combination. -/
def promote (g : Int → Int → Int) (f : ℚ → ℚ → ℚ) (a b : Value) : Value :=
  match a, b with
  | .int x, .int y => .int (g x y)
  | _, _ => .dec (f a.toRat b.toRat)

/-- Modelled from the spec: division — a right operand that is exact zero
(integer or decimal) is a dedicated division-by-zero failure; otherwise the
result is decimal whenever an operand is decimal, and division of two exact
integers stays exact when it divides evenly and is real-valued otherwise
(the spec leaves integer division implementation-defined but prescribes
real-valued division generally, to avoid surprising truncation). -/
def divideValues (a b : Value) : Except Err Value :=
  if b.isZero then .error .divisionByZero
  else
    match a, b with
    | .int x, .int y =>
      if x % y = 0 then .ok (.int (x / y)) else .ok (.dec ((x : ℚ) / (y : ℚ)))
    | _, _ => .ok (.dec (a.toRat / b.toRat))

/-- Modelled from the spec: `calculator.eval_value`, the post-order fold of
the AST — `Num` yields its stored numeric value (a non-numeric payload,
unreachable from parsing, is a type error), `Par` is transparent, each
binary node evaluates both children and combines them with the promotion
rule, and `Div` applies the division rule above. -/
def eval_value : Expr → Except Err Value
  | .Num (.num v) => .ok v
  | .Num _ => .error .typeError
  | .Par e => eval_value e
  | .Add l r =>
    match eval_value l, eval_value r with
    | .ok a, .ok b => .ok (promote (· + ·) (· + ·) a b)
    | .error e, _ => .error e
    | _, .error e => .error e
  | .Minus l r =>
    match eval_value l, eval_value r with
    | .ok a, .ok b => .ok (promote (· - ·) (· - ·) a b)
    | .error e, _ => .error e
    | _, .error e => .error e
  | .Multi l r =>
    match eval_value l, eval_value r with
    | .ok a, .ok b => .ok (promote (· * ·) (· * ·) a b)
    | .error e, _ => .error e
    | _, .error e => .error e
  | .Div l r =>
    match eval_value l, eval_value r with
    | .ok a, .ok b => divideValues a b
    | .error e, _ => .error e
    | _, .error e => .error e

/-- Parse a source string and evaluate the resulting AST (the composition
exercised by the self-test block of `parser.py`). -/
def parse_and_eval (s : String) : Except Err Value :=
  match parse_expression_from_string s with
  | .error e => .error e
  | .ok ast => eval_value ast

/-- The error kinds raised during lexical analysis: the dispatcher's
"invalid character" `ValueError` and the `ValueError` of `float()`. -/
def Err.isLexicalErr : Err → Bool
  | .invalidChar _ _ => true
  | .floatConv _ => true
  | _ => false

/-- The error kinds raised by the parser proper: `expect`'s expected-token
error and the unexpected-token errors of `parse_factor` and `parse`. -/
def Err.isSynErr : Err → Bool
  | .expectedToken _ _ => true
  | .unexpectedToken _ => true
  | _ => false

/-- The character classes the lexer's dispatcher recognizes: whitespace,
ASCII digits, and the six operator and parenthesis characters.  (`.` is
recognized only inside a number, never as a token of its own.) -/
def recognizedChar (c : Char) : Bool :=
  c.isWhitespace || c.isDigit || c = '+' || c = '-' || c = '*' || c = '/' ||
    c = '(' || c = ')'

/-- A token list whose final element is an EOF token (the shape of every
`tokenize` result, and the invariant under which the parser never dies on an
exhausted cursor). -/
def endsEOF (ts : List Token) : Bool :=
  match ts.getLast? with
  | some t => t.type = .EOF
  | Option.none => false


/-! ## Lexer lemmas -/

theorem charAt_lt {text : List Char} {pos : Nat} {c : Char}
    (h : charAt text pos = some c) : pos < text.length := by
  by_contra hge
  rw [charAt, List.get?_eq_getElem?, List.getElem?_eq_none (Nat.le_of_not_lt hge)] at h
  exact Option.noConfusion h

theorem charAt_mem {text : List Char} {pos : Nat} {c : Char}
    (h : charAt text pos = some c) : c ∈ text := by
  rw [charAt, List.get?_eq_getElem?] at h
  exact List.getElem?_mem h

theorem drop_of_charAt {text : List Char} {pos : Nat} {c : Char}
    (h : charAt text pos = some c) : text.drop pos = c :: text.drop (pos + 1) := by
  rw [charAt, List.get?_eq_getElem?] at h
  obtain ⟨hlt, he⟩ := List.getElem?_eq_some_iff.mp h
  rw [List.drop_eq_getElem_cons hlt, he]

theorem charAt_none_iff {text : List Char} {pos : Nat} :
    charAt text pos = Option.none ↔ text.length ≤ pos := by
  rw [charAt, List.get?_eq_getElem?]
  exact List.getElem?_eq_none_iff

theorem get?_eq_head?_drop (l : List Char) (n : Nat) : l.get? n = (l.drop n).head? := by
  induction n generalizing l with
  | zero => cases l <;> rfl
  | succ n ih =>
    cases l with
    | nil => rfl
    | cons a l => exact ih l

theorem takeWhile_length_le (p : Char → Bool) (l : List Char) :
    (l.takeWhile p).length ≤ l.length := by
  induction l with
  | nil => simp
  | cons a l ih =>
    rw [List.takeWhile_cons]
    split
    · simp only [List.length_cons]
      omega
    · simp

theorem drop_takeWhile_length (p : Char → Bool) (l : List Char) :
    l.drop (l.takeWhile p).length = l.dropWhile p := by
  induction l with
  | nil => rfl
  | cons a l ih =>
    by_cases h : p a
    · simp [List.takeWhile_cons_of_pos h, List.dropWhile_cons_of_pos h, ih]
    · simp [List.takeWhile_cons_of_neg h, List.dropWhile_cons_of_neg h]

theorem skip_whitespace_ge (text : List Char) (pos : Nat) :
    pos ≤ skip_whitespace text pos :=
  Nat.le_add_right _ _

theorem skip_whitespace_of_not_ws {text : List Char} {pos : Nat} {c : Char}
    (h : charAt text pos = some c) (hw : c.isWhitespace = false) :
    skip_whitespace text pos = pos := by
  rw [skip_whitespace, drop_of_charAt h, List.takeWhile_cons_of_neg (by simp [hw])]
  rfl

theorem drop_skip_whitespace (text : List Char) (pos : Nat) :
    text.drop (skip_whitespace text pos) =
      (text.drop pos).dropWhile (fun ch => ch.isWhitespace) := by
  rw [skip_whitespace, ← List.drop_drop, drop_takeWhile_length]

theorem charAt_skip_not_ws {text : List Char} {pos : Nat} {c : Char}
    (h : charAt text (skip_whitespace text pos) = some c) : c.isWhitespace = false := by
  have h2 : ((text.drop pos).dropWhile (fun ch => ch.isWhitespace)).head? = some c := by
    rw [← drop_skip_whitespace, ← get?_eq_head?_drop]
    exact h
  have h3 := List.head?_dropWhile_not (fun ch => ch.isWhitespace) (text.drop pos)
  rw [h2] at h3
  exact h3

theorem numRun_length_le (text : List Char) (pos : Nat) :
    (numRun text pos).length ≤ text.length - pos := by
  have h := takeWhile_length_le isNumChar (text.drop pos)
  rw [List.length_drop] at h
  exact h

theorem numRun_cons {text : List Char} {pos : Nat} {c : Char}
    (h : charAt text pos = some c) (hd : isNumChar c = true) :
    numRun text pos = c :: (text.drop (pos + 1)).takeWhile isNumChar := by
  rw [numRun, drop_of_charAt h, List.takeWhile_cons_of_pos hd]

theorem read_number_eq (text : List Char) (pos : Nat) :
    read_number text pos =
      if (numRun text pos).contains '.' then
        match pyFloat (numRun text pos) with
        | some q => .ok (⟨.NUMBER, .num (.dec q), pos⟩, pos + (numRun text pos).length)
        | Option.none => .error (.floatConv (numRun text pos))
      else
        .ok (⟨.NUMBER, .num (.int (digitsToNat (numRun text pos))), pos⟩,
          pos + (numRun text pos).length) := rfl

theorem read_number_progress {text : List Char} {pos : Nat} {t : Token} {p : Nat} {c : Char}
    (hs : charAt text pos = some c) (hd : c.isDigit = true)
    (h : read_number text pos = .ok (t, p)) : pos < p ∧ p ≤ text.length := by
  have hlt := charAt_lt hs
  have hne : 1 ≤ (numRun text pos).length := by
    rw [numRun_cons hs (by simp [isNumChar, hd])]
    simp
  have hle := numRun_length_le text pos
  rw [read_number_eq] at h
  split at h
  · split at h
    · cases h
      constructor <;> omega
    · cases h
  · cases h
    constructor <;> omega

theorem get_next_token_eq_eof {text : List Char} {pos : Nat}
    (hc : charAt text (skip_whitespace text pos) = Option.none) :
    get_next_token text pos =
      .ok (⟨.EOF, .none, skip_whitespace text pos⟩, skip_whitespace text pos) := by
  simp only [get_next_token, hc]

theorem get_next_token_progress {text : List Char} {pos : Nat} {t : Token} {p : Nat}
    (h : get_next_token text pos = .ok (t, p)) (ht : ¬ t.type = .EOF) :
    pos < p ∧ p ≤ text.length := by
  have hsge : pos ≤ skip_whitespace text pos := skip_whitespace_ge text pos
  rcases hc : charAt text (skip_whitespace text pos) with _ | c
  · rw [get_next_token_eq_eof hc] at h
    cases h
    exact absurd rfl ht
  · have hlt := charAt_lt hc
    simp only [get_next_token, hc] at h
    split at h
    · rename_i hdig
      have h2 := read_number_progress hc hdig h
      constructor <;> omega
    · split at h
      · cases h; constructor <;> omega
      · split at h
        · cases h; constructor <;> omega
        · split at h
          · cases h; constructor <;> omega
          · split at h
            · cases h; constructor <;> omega
            · split at h
              · cases h; constructor <;> omega
              · split at h
                · cases h; constructor <;> omega
                · cases h

theorem get_next_token_error_lexical {text : List Char} {pos : Nat} {e : Err}
    (h : get_next_token text pos = .error e) : e.isLexicalErr = true := by
  rcases hc : charAt text (skip_whitespace text pos) with _ | c
  · rw [get_next_token_eq_eof hc] at h
    cases h
  · simp only [get_next_token, hc] at h
    split at h
    · rw [read_number_eq] at h
      split at h
      · split at h
        · cases h
        · cases h; rfl
      · cases h
    · split at h
      · cases h
      · split at h
        · cases h
        · split at h
          · cases h
          · split at h
            · cases h
            · split at h
              · cases h
              · split at h
                · cases h
                · cases h; rfl

theorem read_number_int {text : List Char} {pos : Nat}
    (hnodot : (numRun text pos).contains '.' = false) :
    read_number text pos =
      .ok (⟨.NUMBER, .num (.int (digitsToNat (numRun text pos))), pos⟩,
        pos + (numRun text pos).length) := by
  rw [read_number_eq, hnodot]
  simp

theorem get_next_token_digit {text : List Char} {pos : Nat} {c : Char}
    (hc : charAt text (skip_whitespace text pos) = some c) (hd : c.isDigit = true) :
    get_next_token text pos = read_number text (skip_whitespace text pos) := by
  simp [get_next_token, hc, hd]

theorem get_next_token_ok_of_recognized {text : List Char} (pos : Nat)
    (hrec : ∀ ch ∈ text, recognizedChar ch = true) :
    ∃ t p, get_next_token text pos = .ok (t, p) := by
  cases hc : charAt text (skip_whitespace text pos) with
  | none => exact ⟨_, _, get_next_token_eq_eof hc⟩
  | some c =>
    have hmem : c ∈ text := charAt_mem hc
    have hw := charAt_skip_not_ws hc
    have hr := hrec c hmem
    rw [recognizedChar] at hr
    simp only [hw, Bool.false_or, Bool.or_eq_true, decide_eq_true_eq] at hr
    rcases hr with (((((hd | rfl) | rfl) | rfl) | rfl) | rfl) | rfl
    · have hnodot : (numRun text (skip_whitespace text pos)).contains '.' = false := by
        by_contra hcon
        rw [Bool.not_eq_false] at hcon
        have hdm : ('.' : Char) ∈ numRun text (skip_whitespace text pos) := by
          simpa using hcon
        have hdt : ('.' : Char) ∈ text :=
          List.drop_subset _ _ (List.takeWhile_subset _ hdm)
        have hrd := hrec '.' hdt
        simp [recognizedChar] at hrd
      exact ⟨_, _, by rw [get_next_token_digit hc hd, read_number_int hnodot]⟩
    · exact ⟨⟨.PLUS, .sym '+', skip_whitespace text pos⟩, skip_whitespace text pos + 1,
        by simp [get_next_token, hc]⟩
    · exact ⟨⟨.MINUS, .sym '-', skip_whitespace text pos⟩, skip_whitespace text pos + 1,
        by simp [get_next_token, hc]⟩
    · exact ⟨⟨.MULTIPLY, .sym '*', skip_whitespace text pos⟩, skip_whitespace text pos + 1,
        by simp [get_next_token, hc]⟩
    · exact ⟨⟨.DIVIDE, .sym '/', skip_whitespace text pos⟩, skip_whitespace text pos + 1,
        by simp [get_next_token, hc]⟩
    · exact ⟨⟨.LPAREN, .sym '(', skip_whitespace text pos⟩, skip_whitespace text pos + 1,
        by simp [get_next_token, hc]⟩
    · exact ⟨⟨.RPAREN, .sym ')', skip_whitespace text pos⟩, skip_whitespace text pos + 1,
        by simp [get_next_token, hc]⟩

/-! ## Tokenize lemmas -/

theorem tokenizeF_shape {text : List Char} :
    ∀ {fuel pos : Nat} {ts : List Token}, tokenizeF fuel text pos = .ok ts →
      ∃ pre last, ts = pre ++ [last] ∧ last.type = .EOF ∧ ∀ u ∈ pre, ¬ u.type = .EOF := by
  intro fuel
  induction fuel with
  | zero => intro pos ts h; cases h
  | succ n ih =>
    intro pos ts h
    cases hg : get_next_token text pos with
    | error e =>
      simp only [tokenizeF, hg] at h
      cases h
    | ok tp =>
      obtain ⟨t, p⟩ := tp
      simp only [tokenizeF, hg] at h
      by_cases ht : t.type = .EOF
      · rw [if_pos ht] at h
        cases h
        exact ⟨[], t, rfl, ht, by simp⟩
      · rw [if_neg ht] at h
        cases hrec : tokenizeF n text p with
        | error e => rw [hrec] at h; cases h
        | ok ts' =>
          rw [hrec] at h
          cases h
          obtain ⟨pre, last, rfl, hl, hpre⟩ := ih hrec
          refine ⟨t :: pre, last, rfl, hl, ?_⟩
          intro u hu
          rcases List.mem_cons.mp hu with rfl | hu2
          · exact ht
          · exact hpre u hu2

theorem tokenizeF_error_lexical {text : List Char} :
    ∀ {fuel pos : Nat} {e : Err}, text.length + 1 - pos ≤ fuel → pos ≤ text.length →
      tokenizeF fuel text pos = .error e → e.isLexicalErr = true := by
  intro fuel
  induction fuel with
  | zero => intro pos e hf hp _; omega
  | succ n ih =>
    intro pos e hf hp h
    cases hg : get_next_token text pos with
    | error e2 =>
      simp only [tokenizeF, hg] at h
      cases h
      exact get_next_token_error_lexical hg
    | ok tp =>
      obtain ⟨t, p⟩ := tp
      simp only [tokenizeF, hg] at h
      by_cases ht : t.type = .EOF
      · rw [if_pos ht] at h; cases h
      · rw [if_neg ht] at h
        have hprog := get_next_token_progress hg ht
        cases hrec : tokenizeF n text p with
        | error e2 =>
          rw [hrec] at h
          cases h
          exact ih (by omega) (by omega) hrec
        | ok ts' => rw [hrec] at h; cases h

theorem tokenizeF_ok_of_recognized {text : List Char}
    (hall : ∀ ch ∈ text, recognizedChar ch = true) :
    ∀ {fuel pos : Nat}, text.length + 1 - pos ≤ fuel → pos ≤ text.length →
      ∃ ts, tokenizeF fuel text pos = .ok ts := by
  intro fuel
  induction fuel with
  | zero => intro pos hf hp; omega
  | succ n ih =>
    intro pos hf hp
    obtain ⟨t, p, hg⟩ := get_next_token_ok_of_recognized pos hall
    by_cases ht : t.type = .EOF
    · exact ⟨[t], by simp only [tokenizeF, hg, if_pos ht]⟩
    · have hprog := get_next_token_progress hg ht
      obtain ⟨ts', hrec2⟩ := @ih p (by omega) (by omega)
      exact ⟨t :: ts', by simp only [tokenizeF, hg, if_neg ht, hrec2]⟩

/-- Every successful tokenization ends in EOF, with no earlier EOF token. -/
theorem tokenize_shape {text : List Char} {ts : List Token}
    (h : Lexer.tokenize text = .ok ts) :
    ∃ pre last, ts = pre ++ [last] ∧ last.type = .EOF ∧ ∀ u ∈ pre, ¬ u.type = .EOF :=
  tokenizeF_shape h

/-- Every error escaping `Lexer.tokenize` is a lexical error. -/
theorem tokenize_error_lexical {text : List Char} {e : Err}
    (h : Lexer.tokenize text = .error e) : e.isLexicalErr = true :=
  tokenizeF_error_lexical (by omega) (by omega) h

/-- Every successful tokenization satisfies `endsEOF`. -/
theorem tokenize_endsEOF {text : List Char} {ts : List Token}
    (h : Lexer.tokenize text = .ok ts) : endsEOF ts = true := by
  obtain ⟨pre, last, rfl, hl, -⟩ := tokenize_shape h
  rw [endsEOF, List.getLast?_concat]
  simp [hl]

/-! ## Parser lemmas -/

theorem endsEOF_cons {t : Token} {rest : List Token}
    (h : endsEOF (t :: rest) = true) (ht : ¬ t.type = .EOF) :
    rest ≠ [] ∧ endsEOF rest = true := by
  cases rest with
  | nil =>
    exfalso
    simp [endsEOF] at h
    exact ht h
  | cons a l =>
    refine ⟨by simp, ?_⟩
    rw [endsEOF] at h ⊢
    rw [List.getLast?_cons_cons] at h
    exact h

theorem endsEOF_ne_nil {ts : List Token} (h : endsEOF ts = true) : ts ≠ [] := by
  intro hnil
  subst hnil
  simp [endsEOF] at h

theorem expect_ok {tt : TokenType} {ts : List Token} {t : Token} {rest : List Token}
    (h : Parser.expect tt ts = .ok (t, rest)) : ts = t :: rest ∧ t.type = tt := by
  cases ts with
  | nil => simp [Parser.expect] at h
  | cons a l =>
    rw [Parser.expect] at h
    by_cases ha : a.type = tt
    · rw [if_pos ha] at h
      cases h
      exact ⟨rfl, ha⟩
    · rw [if_neg ha] at h
      cases h

theorem expect_error {tt : TokenType} {ts : List Token} {e : Err}
    (h : Parser.expect tt ts = .error e) : e.isSynErr = true := by
  cases ts with
  | nil =>
    rw [Parser.expect] at h
    cases h
    rfl
  | cons a l =>
    rw [Parser.expect] at h
    by_cases ha : a.type = tt
    · rw [if_pos ha] at h
      cases h
    · rw [if_neg ha] at h
      cases h
      rfl

/-- Main parser invariant: with sufficient fuel and an EOF-terminated token
suffix, every call either fails with a parser-raised `ValueError`
(`expectedToken`/`unexpectedToken`) or succeeds leaving an EOF-terminated
suffix no longer than its input (strictly shorter for the non-loop calls).
In particular neither `outOfFuel` nor `attrNone` can arise. -/
theorem parseF_good : ∀ (fuel : Nat) (c : PCall), c.bound ≤ fuel → endsEOF c.toks = true →
    (∀ e, parseF fuel c = .error e → e.isSynErr = true) ∧
    (∀ ex rest, parseF fuel c = .ok (ex, rest) →
      endsEOF rest = true ∧ rest.length + c.minConsume ≤ c.toks.length) := by
  intro fuel
  induction fuel with
  | zero =>
    intro c hb he
    exfalso
    cases c <;> simp only [PCall.bound] at hb <;> omega
  | succ n ih =>
    intro c hb he
    cases c with
    | expr ts =>
      simp only [PCall.bound] at hb
      simp only [PCall.toks] at he
      have ihT := ih (.term ts) (by simp only [PCall.bound]; omega)
        (by simpa [PCall.toks] using he)
      constructor
      · intro e hpe
        cases hterm : parseF n (.term ts) with
        | error e2 =>
          simp only [parseF, hterm] at hpe
          cases hpe
          exact ihT.1 _ hterm
        | ok lr =>
          obtain ⟨l, r⟩ := lr
          simp only [parseF, hterm] at hpe
          obtain ⟨hre, hrl⟩ := ihT.2 l r hterm
          simp only [PCall.minConsume, PCall.toks] at hrl
          have ihL := ih (.exprLoop l r) (by simp only [PCall.bound]; omega)
            (by simpa [PCall.toks] using hre)
          exact ihL.1 _ hpe
      · intro ex rest hpe
        cases hterm : parseF n (.term ts) with
        | error e2 =>
          simp only [parseF, hterm] at hpe
          cases hpe
        | ok lr =>
          obtain ⟨l, r⟩ := lr
          simp only [parseF, hterm] at hpe
          obtain ⟨hre, hrl⟩ := ihT.2 l r hterm
          simp only [PCall.minConsume, PCall.toks] at hrl
          have ihL := ih (.exprLoop l r) (by simp only [PCall.bound]; omega)
            (by simpa [PCall.toks] using hre)
          obtain ⟨hre2, hrl2⟩ := ihL.2 ex rest hpe
          simp only [PCall.minConsume, PCall.toks] at hrl2
          refine ⟨hre2, ?_⟩
          simp only [PCall.minConsume, PCall.toks]
          omega
    | term ts =>
      simp only [PCall.bound] at hb
      simp only [PCall.toks] at he
      have ihF := ih (.factor ts) (by simp only [PCall.bound]; omega)
        (by simpa [PCall.toks] using he)
      constructor
      · intro e hpe
        cases hfac : parseF n (.factor ts) with
        | error e2 =>
          simp only [parseF, hfac] at hpe
          cases hpe
          exact ihF.1 _ hfac
        | ok lr =>
          obtain ⟨l, r⟩ := lr
          simp only [parseF, hfac] at hpe
          obtain ⟨hre, hrl⟩ := ihF.2 l r hfac
          simp only [PCall.minConsume, PCall.toks] at hrl
          have ihL := ih (.termLoop l r) (by simp only [PCall.bound]; omega)
            (by simpa [PCall.toks] using hre)
          exact ihL.1 _ hpe
      · intro ex rest hpe
        cases hfac : parseF n (.factor ts) with
        | error e2 =>
          simp only [parseF, hfac] at hpe
          cases hpe
        | ok lr =>
          obtain ⟨l, r⟩ := lr
          simp only [parseF, hfac] at hpe
          obtain ⟨hre, hrl⟩ := ihF.2 l r hfac
          simp only [PCall.minConsume, PCall.toks] at hrl
          have ihL := ih (.termLoop l r) (by simp only [PCall.bound]; omega)
            (by simpa [PCall.toks] using hre)
          obtain ⟨hre2, hrl2⟩ := ihL.2 ex rest hpe
          simp only [PCall.minConsume, PCall.toks] at hrl2
          refine ⟨hre2, ?_⟩
          simp only [PCall.minConsume, PCall.toks]
          omega
    | exprLoop left ts =>
      simp only [PCall.bound] at hb
      simp only [PCall.toks] at he
      cases ts with
      | nil => simp [endsEOF] at he
      | cons op rest =>
        by_cases hop : op.type = .PLUS ∨ op.type = .MINUS
        · have hopne : ¬ op.type = .EOF := by
            rcases hop with h | h <;> simp [h]
          obtain ⟨hrne, hre⟩ := endsEOF_cons he hopne
          have ihT := ih (.term rest) (by simp only [PCall.bound]; simp only [List.length_cons] at hb; omega)
            (by simpa [PCall.toks] using hre)
          constructor
          · intro e hpe
            simp only [parseF] at hpe
            rw [if_pos hop] at hpe
            cases hterm : parseF n (.term rest) with
            | error e2 =>
              simp only [hterm] at hpe
              cases hpe
              exact ihT.1 _ hterm
            | ok rr =>
              obtain ⟨right, r2⟩ := rr
              simp only [hterm] at hpe
              obtain ⟨hr2e, hr2l⟩ := ihT.2 right r2 hterm
              simp only [PCall.minConsume, PCall.toks] at hr2l
              have ihL := ih (.exprLoop (if op.type = .PLUS then .Add left right else .Minus left right) r2)
                (by simp only [PCall.bound]; simp only [List.length_cons] at hb; omega)
                (by simpa [PCall.toks] using hr2e)
              exact ihL.1 _ hpe
          · intro ex rest2 hpe
            simp only [parseF] at hpe
            rw [if_pos hop] at hpe
            cases hterm : parseF n (.term rest) with
            | error e2 =>
              simp only [hterm] at hpe
              cases hpe
            | ok rr =>
              obtain ⟨right, r2⟩ := rr
              simp only [hterm] at hpe
              obtain ⟨hr2e, hr2l⟩ := ihT.2 right r2 hterm
              simp only [PCall.minConsume, PCall.toks] at hr2l
              have ihL := ih (.exprLoop (if op.type = .PLUS then .Add left right else .Minus left right) r2)
                (by simp only [PCall.bound]; simp only [List.length_cons] at hb; omega)
                (by simpa [PCall.toks] using hr2e)
              obtain ⟨hre2, hrl2⟩ := ihL.2 ex rest2 hpe
              simp only [PCall.minConsume, PCall.toks] at hrl2
              refine ⟨hre2, ?_⟩
              simp only [PCall.minConsume, PCall.toks, List.length_cons]
              omega
        · constructor
          · intro e hpe
            simp only [parseF] at hpe
            rw [if_neg hop] at hpe
            cases hpe
          · intro ex rest2 hpe
            simp only [parseF] at hpe
            rw [if_neg hop] at hpe
            cases hpe
            refine ⟨he, ?_⟩
            simp only [PCall.minConsume, PCall.toks]
            omega
    | termLoop left ts =>
      simp only [PCall.bound] at hb
      simp only [PCall.toks] at he
      cases ts with
      | nil => simp [endsEOF] at he
      | cons op rest =>
        by_cases hop : op.type = .MULTIPLY ∨ op.type = .DIVIDE
        · have hopne : ¬ op.type = .EOF := by
            rcases hop with h | h <;> simp [h]
          obtain ⟨hrne, hre⟩ := endsEOF_cons he hopne
          have ihF := ih (.factor rest) (by simp only [PCall.bound]; simp only [List.length_cons] at hb; omega)
            (by simpa [PCall.toks] using hre)
          constructor
          · intro e hpe
            simp only [parseF] at hpe
            rw [if_pos hop] at hpe
            cases hfac : parseF n (.factor rest) with
            | error e2 =>
              simp only [hfac] at hpe
              cases hpe
              exact ihF.1 _ hfac
            | ok rr =>
              obtain ⟨right, r2⟩ := rr
              simp only [hfac] at hpe
              obtain ⟨hr2e, hr2l⟩ := ihF.2 right r2 hfac
              simp only [PCall.minConsume, PCall.toks] at hr2l
              have ihL := ih (.termLoop (if op.type = .MULTIPLY then .Multi left right else .Div left right) r2)
                (by simp only [PCall.bound]; simp only [List.length_cons] at hb; omega)
                (by simpa [PCall.toks] using hr2e)
              exact ihL.1 _ hpe
          · intro ex rest2 hpe
            simp only [parseF] at hpe
            rw [if_pos hop] at hpe
            cases hfac : parseF n (.factor rest) with
            | error e2 =>
              simp only [hfac] at hpe
              cases hpe
            | ok rr =>
              obtain ⟨right, r2⟩ := rr
              simp only [hfac] at hpe
              obtain ⟨hr2e, hr2l⟩ := ihF.2 right r2 hfac
              simp only [PCall.minConsume, PCall.toks] at hr2l
              have ihL := ih (.termLoop (if op.type = .MULTIPLY then .Multi left right else .Div left right) r2)
                (by simp only [PCall.bound]; simp only [List.length_cons] at hb; omega)
                (by simpa [PCall.toks] using hr2e)
              obtain ⟨hre2, hrl2⟩ := ihL.2 ex rest2 hpe
              simp only [PCall.minConsume, PCall.toks] at hrl2
              refine ⟨hre2, ?_⟩
              simp only [PCall.minConsume, PCall.toks, List.length_cons]
              omega
        · constructor
          · intro e hpe
            simp only [parseF] at hpe
            rw [if_neg hop] at hpe
            cases hpe
          · intro ex rest2 hpe
            simp only [parseF] at hpe
            rw [if_neg hop] at hpe
            cases hpe
            refine ⟨he, ?_⟩
            simp only [PCall.minConsume, PCall.toks]
            omega
    | factor ts =>
      simp only [PCall.bound] at hb
      simp only [PCall.toks] at he
      cases ts with
      | nil => simp [endsEOF] at he
      | cons t rest =>
        by_cases h1 : t.type = .NUMBER
        · constructor
          · intro e hpe
            simp only [parseF] at hpe
            rw [if_pos h1] at hpe
            cases hpe
          · intro ex rest2 hpe
            simp only [parseF] at hpe
            rw [if_pos h1] at hpe
            cases hpe
            obtain ⟨-, hre⟩ := endsEOF_cons he (by simp [h1])
            refine ⟨hre, ?_⟩
            simp only [PCall.minConsume, PCall.toks, List.length_cons]
            omega
        · by_cases h2 : t.type = .LPAREN
          · obtain ⟨hrne, hre⟩ := endsEOF_cons he (by simp [h2])
            have ihE := ih (.expr rest) (by simp only [PCall.bound]; simp only [List.length_cons] at hb; omega)
              (by simpa [PCall.toks] using hre)
            constructor
            · intro e hpe
              simp only [parseF] at hpe
              rw [if_neg h1, if_pos h2] at hpe
              cases hexp : parseF n (.expr rest) with
              | error e2 =>
                simp only [hexp] at hpe
                cases hpe
                exact ihE.1 _ hexp
              | ok er =>
                obtain ⟨einner, r⟩ := er
                simp only [hexp] at hpe
                cases hx : Parser.expect .RPAREN r with
                | error e2 =>
                  simp only [hx] at hpe
                  cases hpe
                  exact expect_error hx
                | ok tr =>
                  obtain ⟨tk, r2⟩ := tr
                  simp only [hx] at hpe
                  cases hpe
            · intro ex rest2 hpe
              simp only [parseF] at hpe
              rw [if_neg h1, if_pos h2] at hpe
              cases hexp : parseF n (.expr rest) with
              | error e2 =>
                simp only [hexp] at hpe
                cases hpe
              | ok er =>
                obtain ⟨einner, r⟩ := er
                simp only [hexp] at hpe
                obtain ⟨hrE, hrL⟩ := ihE.2 einner r hexp
                simp only [PCall.minConsume, PCall.toks] at hrL
                cases hx : Parser.expect .RPAREN r with
                | error e2 =>
                  simp only [hx] at hpe
                  cases hpe
                | ok tr =>
                  obtain ⟨tk, r2⟩ := tr
                  simp only [hx] at hpe
                  cases hpe
                  obtain ⟨hr_eq, htk⟩ := expect_ok hx
                  subst hr_eq
                  obtain ⟨-, hr2e⟩ := endsEOF_cons hrE (by simp [htk])
                  refine ⟨hr2e, ?_⟩
                  simp only [PCall.minConsume, PCall.toks, List.length_cons] at *
                  omega
          · constructor
            · intro e hpe
              simp only [parseF] at hpe
              rw [if_neg h1, if_neg h2] at hpe
              cases hpe
              rfl
            · intro ex rest2 hpe
              simp only [parseF] at hpe
              rw [if_neg h1, if_neg h2] at hpe
              cases hpe

/-- `Parser.parse` classification: on an EOF-terminated token list, every
error `Parser.parse` raises is one of the parser's own `ValueError`s. -/
theorem parse_error_synErr {ts : List Token} (he : endsEOF ts = true) {e : Err}
    (h : Parser.parse ts = .error e) : e.isSynErr = true := by
  have hg := parseF_good (PCall.expr ts).bound (.expr ts) le_rfl
    (by simpa [PCall.toks] using he)
  cases hpe : Parser.parse_expression ts with
  | error e2 =>
    simp only [Parser.parse, hpe] at h
    cases h
    rw [Parser.parse_expression] at hpe
    exact hg.1 _ hpe
  | ok er =>
    obtain ⟨ex, rest⟩ := er
    simp only [Parser.parse, hpe] at h
    cases rest with
    | nil => cases h
    | cons t l =>
      have h2 : (if t.type ≠ TokenType.EOF then Except.error (Err.unexpectedToken t)
          else Except.ok ex) = Except.error e := h
      by_cases htt : t.type ≠ .EOF
      · rw [if_pos htt] at h2
        cases h2
        rfl
      · rw [if_neg htt] at h2
        cases h2

/-- Classification of every failure of the string entry point: any error is
lexical or syntactic — never `attrNone`, `outOfFuel`, or an evaluator
error. -/
theorem parse_expression_from_string_error {s : String} {e : Err}
    (h : parse_expression_from_string s = .error e) :
    e.isLexicalErr = true ∨ e.isSynErr = true := by
  rw [parse_expression_from_string] at h
  cases ht : Lexer.tokenize s.data with
  | error e2 =>
    rw [ht] at h
    cases h
    exact Or.inl (tokenize_error_lexical ht)
  | ok ts =>
    rw [ht] at h
    exact Or.inr (parse_error_synErr (tokenize_endsEOF ht) h)

/-- Tokenizing an all-whitespace text yields exactly one token: EOF at the
end-of-input offset. -/
theorem tokenize_all_ws {text : List Char} (hws : ∀ c ∈ text, c.isWhitespace = true) :
    Lexer.tokenize text = .ok [⟨.EOF, .none, text.length⟩] := by
  have hskip : skip_whitespace text 0 = text.length := by
    rw [skip_whitespace, List.drop_zero, List.takeWhile_eq_self_iff.mpr hws]
    omega
  have hc : charAt text (skip_whitespace text 0) = Option.none := by
    rw [charAt_none_iff, hskip]
  have hg := get_next_token_eq_eof hc
  rw [hskip] at hg
  rw [Lexer.tokenize]
  simp [tokenizeF, hg]

/-- Parsing a token list consisting of one EOF token fails in the
primary-expression production with that token as the unexpected token. -/
theorem parse_eof_singleton (tv : TokVal) (tp : Nat) :
    Parser.parse [⟨.EOF, tv, tp⟩] = .error (.unexpectedToken ⟨.EOF, tv, tp⟩) := rfl

/-- The division rule fails with the dedicated condition whenever the right
operand evaluates to exact zero. -/
theorem eval_div_zero {l r : Expr} {a b : Value} (hl : eval_value l = .ok a)
    (hr : eval_value r = .ok b) (hz : b.isZero = true) :
    eval_value (.Div l r) = .error .divisionByZero := by
  simp only [eval_value, hl, hr]
  simp [divideValues, hz]

/-- The accumulator of `int()` computes the standard base-10 positional
reading of the lexeme's digits. -/
theorem digitsToNat_eq_ofDigits (s : List Char) :
    digitsToNat s = Nat.ofDigits 10 ((s.map (fun c => c.toNat - 48)).reverse) := by
  induction s using List.reverseRecOn with
  | nil => rfl
  | append_singleton l c ih =>
    simp only [digitsToNat, List.foldl_append, List.foldl_cons, List.foldl_nil,
      List.map_append, List.map_cons, List.map_nil, List.reverse_append,
      List.reverse_cons, List.reverse_nil, List.nil_append, List.cons_append,
      Nat.ofDigits_cons] at ih ⊢
    omega

/-- A lexeme with exactly one dot splits as integer part, dot, fractional
part. -/
theorem one_dot_split {s : List Char} (hd : s.count '.' = 1) :
    s = s.takeWhile (fun c => c ≠ '.') ++
      '.' :: (s.dropWhile (fun c => c ≠ '.')).tail := by
  have hmem : ('.' : Char) ∈ s := by
    have : 0 < s.count '.' := by omega
    exact List.count_pos_iff.mp this
  have hne : s.dropWhile (fun c => c ≠ '.') ≠ [] := by
    intro hnil
    rw [List.dropWhile_eq_nil_iff] at hnil
    have := hnil '.' hmem
    simp at this
  cases hdw : s.dropWhile (fun c => c ≠ '.') with
  | nil => exact absurd hdw hne
  | cons x xs =>
    have hx : x = '.' := by
      have h3 := List.head?_dropWhile_not (fun c => decide (c ≠ '.')) s
      rw [hdw] at h3
      simp at h3
      exact h3
    subst hx
    conv_lhs => rw [← List.takeWhile_append_dropWhile (fun c => decide (c ≠ '.')) s]
    rw [hdw]
    rfl

/-- `float()` on a lexeme with exactly one dot and a digit succeeds with the
decimal reading: integer part plus fractional part scaled down. -/
theorem pyFloat_one_dot {s : List Char} (hd : s.count '.' = 1)
    (hdig : s.any Char.isDigit = true) :
    pyFloat s = some ((digitsToNat (s.takeWhile (fun c => c ≠ '.')) : ℚ) +
      (digitsToNat ((s.dropWhile (fun c => c ≠ '.')).tail) : ℚ) /
        10 ^ (s.dropWhile (fun c => c ≠ '.')).tail.length) := by
  rw [pyFloat, if_pos ⟨by omega, hdig⟩]

/-! ## Claim theorems -/

/-- C1: `*`/`/` bind tighter than `+`/`-`: for any number tokens, a
multiplicative operator adjacent to an additive one at the same nesting
level is folded first, so the multiplicative subexpression becomes an
operand of the additive node (all four operator combinations, in both
orders); in particular `"2 + 3 * 4"` parses and evaluates to `14`, not
`20`. -/
theorem C1_precedence :
    (∀ (v1 v2 v3 : TokVal) (p1 p2 p3 p4 p5 p6 : Nat),
      Parser.parse [⟨.NUMBER, v1, p1⟩, ⟨.PLUS, .sym '+', p2⟩, ⟨.NUMBER, v2, p3⟩,
          ⟨.MULTIPLY, .sym '*', p4⟩, ⟨.NUMBER, v3, p5⟩, ⟨.EOF, .none, p6⟩] =
        .ok (.Add (.Num v1) (.Multi (.Num v2) (.Num v3))) ∧
      Parser.parse [⟨.NUMBER, v1, p1⟩, ⟨.PLUS, .sym '+', p2⟩, ⟨.NUMBER, v2, p3⟩,
          ⟨.DIVIDE, .sym '/', p4⟩, ⟨.NUMBER, v3, p5⟩, ⟨.EOF, .none, p6⟩] =
        .ok (.Add (.Num v1) (.Div (.Num v2) (.Num v3))) ∧
      Parser.parse [⟨.NUMBER, v1, p1⟩, ⟨.MINUS, .sym '-', p2⟩, ⟨.NUMBER, v2, p3⟩,
          ⟨.MULTIPLY, .sym '*', p4⟩, ⟨.NUMBER, v3, p5⟩, ⟨.EOF, .none, p6⟩] =
        .ok (.Minus (.Num v1) (.Multi (.Num v2) (.Num v3))) ∧
      Parser.parse [⟨.NUMBER, v1, p1⟩, ⟨.MINUS, .sym '-', p2⟩, ⟨.NUMBER, v2, p3⟩,
          ⟨.DIVIDE, .sym '/', p4⟩, ⟨.NUMBER, v3, p5⟩, ⟨.EOF, .none, p6⟩] =
        .ok (.Minus (.Num v1) (.Div (.Num v2) (.Num v3))) ∧
      Parser.parse [⟨.NUMBER, v1, p1⟩, ⟨.MULTIPLY, .sym '*', p2⟩, ⟨.NUMBER, v2, p3⟩,
          ⟨.PLUS, .sym '+', p4⟩, ⟨.NUMBER, v3, p5⟩, ⟨.EOF, .none, p6⟩] =
        .ok (.Add (.Multi (.Num v1) (.Num v2)) (.Num v3)) ∧
      Parser.parse [⟨.NUMBER, v1, p1⟩, ⟨.DIVIDE, .sym '/', p2⟩, ⟨.NUMBER, v2, p3⟩,
          ⟨.PLUS, .sym '+', p4⟩, ⟨.NUMBER, v3, p5⟩, ⟨.EOF, .none, p6⟩] =
        .ok (.Add (.Div (.Num v1) (.Num v2)) (.Num v3)) ∧
      Parser.parse [⟨.NUMBER, v1, p1⟩, ⟨.MULTIPLY, .sym '*', p2⟩, ⟨.NUMBER, v2, p3⟩,
          ⟨.MINUS, .sym '-', p4⟩, ⟨.NUMBER, v3, p5⟩, ⟨.EOF, .none, p6⟩] =
        .ok (.Minus (.Multi (.Num v1) (.Num v2)) (.Num v3)) ∧
      Parser.parse [⟨.NUMBER, v1, p1⟩, ⟨.DIVIDE, .sym '/', p2⟩, ⟨.NUMBER, v2, p3⟩,
          ⟨.MINUS, .sym '-', p4⟩, ⟨.NUMBER, v3, p5⟩, ⟨.EOF, .none, p6⟩] =
        .ok (.Minus (.Div (.Num v1) (.Num v2)) (.Num v3))) ∧
    parse_and_eval "2 + 3 * 4" = .ok (.int 14) ∧
    ¬ parse_and_eval "2 + 3 * 4" = .ok (.int 20) :=
  ⟨fun _ _ _ _ _ _ _ _ _ => ⟨rfl, rfl, rfl, rfl, rfl, rfl, rfl, rfl⟩,
    by decide, by decide⟩

/-- C2: every chain of two same-precedence binary operators groups from the
left — the first fold becomes the left operand of the second (all four
additive and all four multiplicative combinations); in particular
`"8 - 3 - 2"` parses as `(8 - 3) - 2` and evaluates to `3`, not `7`. -/
theorem C2_left_assoc :
    (∀ (v1 v2 v3 : TokVal) (p1 p2 p3 p4 p5 p6 : Nat),
      Parser.parse [⟨.NUMBER, v1, p1⟩, ⟨.MINUS, .sym '-', p2⟩, ⟨.NUMBER, v2, p3⟩,
          ⟨.MINUS, .sym '-', p4⟩, ⟨.NUMBER, v3, p5⟩, ⟨.EOF, .none, p6⟩] =
        .ok (.Minus (.Minus (.Num v1) (.Num v2)) (.Num v3)) ∧
      Parser.parse [⟨.NUMBER, v1, p1⟩, ⟨.PLUS, .sym '+', p2⟩, ⟨.NUMBER, v2, p3⟩,
          ⟨.PLUS, .sym '+', p4⟩, ⟨.NUMBER, v3, p5⟩, ⟨.EOF, .none, p6⟩] =
        .ok (.Add (.Add (.Num v1) (.Num v2)) (.Num v3)) ∧
      Parser.parse [⟨.NUMBER, v1, p1⟩, ⟨.PLUS, .sym '+', p2⟩, ⟨.NUMBER, v2, p3⟩,
          ⟨.MINUS, .sym '-', p4⟩, ⟨.NUMBER, v3, p5⟩, ⟨.EOF, .none, p6⟩] =
        .ok (.Minus (.Add (.Num v1) (.Num v2)) (.Num v3)) ∧
      Parser.parse [⟨.NUMBER, v1, p1⟩, ⟨.MINUS, .sym '-', p2⟩, ⟨.NUMBER, v2, p3⟩,
          ⟨.PLUS, .sym '+', p4⟩, ⟨.NUMBER, v3, p5⟩, ⟨.EOF, .none, p6⟩] =
        .ok (.Add (.Minus (.Num v1) (.Num v2)) (.Num v3)) ∧
      Parser.parse [⟨.NUMBER, v1, p1⟩, ⟨.MULTIPLY, .sym '*', p2⟩, ⟨.NUMBER, v2, p3⟩,
          ⟨.MULTIPLY, .sym '*', p4⟩, ⟨.NUMBER, v3, p5⟩, ⟨.EOF, .none, p6⟩] =
        .ok (.Multi (.Multi (.Num v1) (.Num v2)) (.Num v3)) ∧
      Parser.parse [⟨.NUMBER, v1, p1⟩, ⟨.DIVIDE, .sym '/', p2⟩, ⟨.NUMBER, v2, p3⟩,
          ⟨.DIVIDE, .sym '/', p4⟩, ⟨.NUMBER, v3, p5⟩, ⟨.EOF, .none, p6⟩] =
        .ok (.Div (.Div (.Num v1) (.Num v2)) (.Num v3)) ∧
      Parser.parse [⟨.NUMBER, v1, p1⟩, ⟨.MULTIPLY, .sym '*', p2⟩, ⟨.NUMBER, v2, p3⟩,
          ⟨.DIVIDE, .sym '/', p4⟩, ⟨.NUMBER, v3, p5⟩, ⟨.EOF, .none, p6⟩] =
        .ok (.Div (.Multi (.Num v1) (.Num v2)) (.Num v3)) ∧
      Parser.parse [⟨.NUMBER, v1, p1⟩, ⟨.DIVIDE, .sym '/', p2⟩, ⟨.NUMBER, v2, p3⟩,
          ⟨.MULTIPLY, .sym '*', p4⟩, ⟨.NUMBER, v3, p5⟩, ⟨.EOF, .none, p6⟩] =
        .ok (.Multi (.Div (.Num v1) (.Num v2)) (.Num v3))) ∧
    parse_and_eval "8 - 3 - 2" = .ok (.int 3) ∧
    ¬ parse_and_eval "8 - 3 - 2" = .ok (.int 7) :=
  ⟨fun _ _ _ _ _ _ _ _ _ => ⟨rfl, rfl, rfl, rfl, rfl, rfl, rfl, rfl⟩,
    by decide, by decide⟩

/-- C3: starting at a digit, `read_number` accumulates the whole maximal
run of digits and dots with no single-dot validation (every outcome, the
`float()` failure included, is determined by and carries the full run), then
converts: a run with no dot yields a `Literal` token holding the exact
base-10 integer value of the lexeme, and a run with exactly one dot yields a
`Literal` holding its decimal value (integer part plus fractional part over
`10 ^ digits`); concretely `"42"` parses to `Literal 42` and `"3.5"` to
`Literal 3.5`. -/
theorem C3_read_number :
    (∀ (text : List Char) (pos : Nat) (c : Char),
      charAt text pos = some c → c.isDigit = true →
      ((read_number text pos = .error (.floatConv (numRun text pos)) ∧
          2 ≤ (numRun text pos).count '.') ∨
        (∃ v, read_number text pos =
          .ok (⟨.NUMBER, .num v, pos⟩, pos + (numRun text pos).length))) ∧
      ((numRun text pos).contains '.' = false →
        read_number text pos =
          .ok (⟨.NUMBER,
            .num (.int (Nat.ofDigits 10
              (((numRun text pos).map (fun ch => ch.toNat - 48)).reverse))), pos⟩,
            pos + (numRun text pos).length)) ∧
      ((numRun text pos).count '.' = 1 →
        numRun text pos = (numRun text pos).takeWhile (fun ch => ch ≠ '.') ++
          '.' :: ((numRun text pos).dropWhile (fun ch => ch ≠ '.')).tail ∧
        read_number text pos =
          .ok (⟨.NUMBER,
            .num (.dec
              ((digitsToNat ((numRun text pos).takeWhile (fun ch => ch ≠ '.')) : ℚ) +
               (digitsToNat (((numRun text pos).dropWhile (fun ch => ch ≠ '.')).tail) : ℚ) /
                 10 ^ ((numRun text pos).dropWhile (fun ch => ch ≠ '.')).tail.length)),
            pos⟩,
            pos + (numRun text pos).length))) ∧
    parse_expression_from_string "42" = .ok (.Num (.num (.int 42))) ∧
    parse_expression_from_string "3.5" = .ok (.Num (.num (.dec (7 / 2)))) := by
  refine ⟨?_, by decide, by with_unfolding_all decide⟩
  intro text pos c hs hd
  have hrun : numRun text pos = c :: (text.drop (pos + 1)).takeWhile isNumChar :=
    numRun_cons hs (by simp [isNumChar, hd])
  have hany : (numRun text pos).any Char.isDigit = true := by
    rw [hrun]
    simp [hd]
  refine ⟨?_, ?_, ?_⟩
  · by_cases hdot : (numRun text pos).contains '.' = true
    · rcases hpf : pyFloat (numRun text pos) with _ | q
      · left
        refine ⟨by rw [read_number_eq, if_pos hdot, hpf], ?_⟩
        rw [pyFloat] at hpf
        by_cases hcount : (numRun text pos).count '.' ≤ 1
        · rw [if_pos ⟨hcount, hany⟩] at hpf
          cases hpf
        · omega
      · right
        exact ⟨.dec q, by rw [read_number_eq, if_pos hdot, hpf]⟩
    · right
      rw [Bool.not_eq_true] at hdot
      exact ⟨_, read_number_int hdot⟩
  · intro hdot
    rw [read_number_int hdot, digitsToNat_eq_ofDigits]
    norm_cast
  · intro hcount
    refine ⟨one_dot_split hcount, ?_⟩
    have hdot : (numRun text pos).contains '.' = true := by
      have hmem : ('.' : Char) ∈ numRun text pos := by
        apply List.count_pos_iff.mp
        omega
      simpa using hmem
    rw [read_number_eq, if_pos hdot, pyFloat_one_dot hcount hany]

/-- C3 witness at `"3.5"`: the run is `3.5`, the conversion is decimal, the
value is `3 + 5 / 10`. -/
theorem C3_read_number_witness :
    numRun "3.5".data 0 = ['3'] ++ '.' :: ['5'] ∧
    read_number "3.5".data 0 =
      .ok (⟨.NUMBER, .num (.dec ((digitsToNat ['3'] : ℚ) +
        (digitsToNat ['5'] : ℚ) / 10 ^ (1 : Nat))), 0⟩, 0 + 3) :=
  ((C3_read_number.1 "3.5".data 0 '3' (by decide) (by decide)).2.2) (by decide)

/-- C4: the string entry point either returns a fully built AST or fails
with a lexical or syntax error — never any other failure mode (no
`AttributeError` on an exhausted cursor, no out-of-fuel artifact, no
evaluator error) and never a partial result; in particular `"3..5"`, whose
numeric lexeme has two decimal points, fails with the lexical `float()`
conversion error carrying the whole lexeme. -/
theorem C4_error_modes :
    (∀ (s : String) (e : Err), parse_expression_from_string s = .error e →
      e.isLexicalErr = true ∨ e.isSynErr = true) ∧
    parse_expression_from_string "3..5" = .error (.floatConv ['3', '.', '.', '5']) :=
  ⟨fun _ _ h => parse_expression_from_string_error h, by decide⟩

/-- C4 witness at `"3..5"`: the error produced there is classified
lexical/syntactic. -/
theorem C4_error_modes_witness :
    (Err.floatConv ['3', '.', '.', '5']).isLexicalErr = true ∨
    (Err.floatConv ['3', '.', '.', '5']).isSynErr = true :=
  C4_error_modes.1 "3..5" _ (by decide)

/-- C5: division by zero is detected only during evaluation: parsing
`"5 / 0"` succeeds and builds a `Div` node of the two literals, while
evaluating any `Div` node whose right operand evaluates to exact zero
(integer or decimal) fails with the dedicated division-by-zero condition;
concretely evaluating `"5 / 0"` yields that condition. -/
theorem C5_div_by_zero :
    parse_expression_from_string "5 / 0" =
      .ok (.Div (.Num (.num (.int 5))) (.Num (.num (.int 0)))) ∧
    (∀ (l r : Expr) (a b : Value), eval_value l = .ok a → eval_value r = .ok b →
      b.isZero = true → eval_value (.Div l r) = .error .divisionByZero) ∧
    parse_and_eval "5 / 0" = .error .divisionByZero :=
  ⟨by decide, fun _ _ _ _ hl hr hz => eval_div_zero hl hr hz, by decide⟩

/-- C5 witness: the `Div` node built from `"5 / 0"` evaluates to the
division-by-zero condition (integer zero), and a decimal-zero right operand
fails likewise. -/
theorem C5_div_by_zero_witness :
    eval_value (.Div (.Num (.num (.int 5))) (.Num (.num (.int 0)))) =
      .error .divisionByZero ∧
    eval_value (.Div (.Num (.num (.int 5))) (.Num (.num (.dec 0)))) =
      .error .divisionByZero :=
  ⟨C5_div_by_zero.2.1 (.Num (.num (.int 5))) (.Num (.num (.int 0)))
      (.int 5) (.int 0) (by decide) (by decide) (by decide),
    C5_div_by_zero.2.1 (.Num (.num (.int 5))) (.Num (.num (.dec 0)))
      (.int 5) (.dec 0) (by decide) (by with_unfolding_all decide)
      (by with_unfolding_all decide)⟩

/-- C6: a character that is not whitespace, not a digit and not one of the
six operator/parenthesis characters makes `get_next_token` fail with the
invalid-character condition carrying that character and its zero-based
offset; in particular lexing `"3 & 4"` fails naming `&` at offset 2. -/
theorem C6_invalid_char :
    (∀ (text : List Char) (pos : Nat) (c : Char),
      charAt text pos = some c → c.isWhitespace = false → c.isDigit = false →
      ¬ c ∈ (['+', '-', '*', '/', '(', ')'] : List Char) →
      get_next_token text pos = .error (.invalidChar c pos)) ∧
    Lexer.tokenize "3 & 4".data = .error (.invalidChar '&' 2) ∧
    parse_expression_from_string "3 & 4" = .error (.invalidChar '&' 2) := by
  refine ⟨?_, by decide, by decide⟩
  intro text pos c hs hw hd hops
  have hskip := skip_whitespace_of_not_ws hs hw
  simp only [List.mem_cons, List.not_mem_nil, or_false] at hops
  push_neg at hops
  obtain ⟨h1, h2, h3, h4, h5, h6⟩ := hops
  simp only [get_next_token, hskip, hs]
  rw [if_neg (by simp [hd]), if_neg h1, if_neg h2, if_neg h3, if_neg h4,
    if_neg h5, if_neg h6]

/-- C6 witness at `"3 & 4"`, offset 2. -/
theorem C6_invalid_char_witness :
    get_next_token "3 & 4".data 2 = .error (.invalidChar '&' 2) :=
  C6_invalid_char.1 "3 & 4".data 2 '&' (by decide) (by decide) (by decide)
    (by decide)

/-- C7: `expect` consumes and returns the current token exactly when its
kind matches, fails naming the expected and the actual kind on a mismatch,
and names `"EOF"` as the actual kind on an exhausted cursor; in particular
parsing `"(1 + 2"` fails with an expected-token error naming the
right-parenthesis kind. -/
theorem C7_expect :
    (∀ (tt : TokenType) (t : Token) (rest : List Token), t.type = tt →
      Parser.expect tt (t :: rest) = .ok (t, rest)) ∧
    (∀ (tt : TokenType) (t : Token) (rest : List Token), ¬ t.type = tt →
      Parser.expect tt (t :: rest) = .error (.expectedToken tt.str t.type.str)) ∧
    (∀ tt : TokenType, Parser.expect tt [] = .error (.expectedToken tt.str "EOF")) ∧
    parse_expression_from_string "(1 + 2" = .error (.expectedToken "RPAREN" "EOF") := by
  refine ⟨?_, ?_, ?_, by decide⟩
  · intro tt t rest h
    rw [Parser.expect, if_pos h]
  · intro tt t rest h
    rw [Parser.expect, if_neg h]
  · intro tt
    rfl

/-- C7 witness: a matching RPAREN is consumed and returned; a mismatching
EOF token yields the expected-token error naming RPAREN. -/
theorem C7_expect_witness :
    Parser.expect .RPAREN [⟨.RPAREN, .sym ')', 5⟩] = .ok (⟨.RPAREN, .sym ')', 5⟩, []) ∧
    Parser.expect .RPAREN [⟨.EOF, .none, 6⟩] =
      .error (.expectedToken "RPAREN" "EOF") :=
  ⟨C7_expect.1 .RPAREN ⟨.RPAREN, .sym ')', 5⟩ [] (by decide),
    C7_expect.2.1 .RPAREN ⟨.EOF, .none, 6⟩ [] (by decide)⟩

/-- C8: the top-level `parse` succeeds exactly when, after one complete
expression, the cursor stands at EOF (or is exhausted, which the source's
truthiness guard also accepts but which never arises from `tokenize`
output); any other remaining token makes it fail with the
unexpected-trailing-token error instead of returning the partial AST;
concretely `"1 2"` parses one expression and then fails on the trailing
number token. -/
theorem C8_trailing :
    (∀ (ts : List Token) (ex : Expr) (t : Token) (l : List Token),
      Parser.parse_expression ts = .ok (ex, t :: l) → ¬ t.type = .EOF →
      Parser.parse ts = .error (.unexpectedToken t)) ∧
    (∀ (ts : List Token) (ex : Expr) (t : Token) (l : List Token),
      Parser.parse_expression ts = .ok (ex, t :: l) → t.type = .EOF →
      Parser.parse ts = .ok ex) ∧
    parse_expression_from_string "1 2" =
      .error (.unexpectedToken ⟨.NUMBER, .num (.int 2), 2⟩) := by
  refine ⟨?_, ?_, by decide⟩
  · intro ts ex t l hpe ht
    simp only [Parser.parse, hpe]
    exact if_pos ht
  · intro ts ex t l hpe ht
    simp only [Parser.parse, hpe]
    exact if_neg (by simp [ht])

/-- C8 witness on the token list of `"1 2"`: the trailing NUMBER token
aborts the parse; with the trailing token consumed the same prefix
parses. -/
theorem C8_trailing_witness :
    Parser.parse [⟨.NUMBER, .num (.int 1), 0⟩, ⟨.NUMBER, .num (.int 2), 2⟩,
        ⟨.EOF, .none, 3⟩] =
      .error (.unexpectedToken ⟨.NUMBER, .num (.int 2), 2⟩) ∧
    Parser.parse [⟨.NUMBER, .num (.int 1), 0⟩, ⟨.EOF, .none, 1⟩] =
      .ok (.Num (.num (.int 1))) :=
  ⟨C8_trailing.1 _ (.Num (.num (.int 1))) ⟨.NUMBER, .num (.int 2), 2⟩
      [⟨.EOF, .none, 3⟩] (by decide) (by decide),
    C8_trailing.2.1 _ (.Num (.num (.int 1))) ⟨.EOF, .none, 1⟩ [] (by decide)
      (by decide)⟩

/-- C9: `tokenize` of a text made of recognized characters (whitespace,
digits, the six operator/parenthesis characters) succeeds, and every token
sequence `tokenize` ever returns is nonempty, has an EOF token as its final
element, and contains no other EOF token. -/
theorem C9_tokenize_shape :
    (∀ (text : List Char) (ts : List Token), Lexer.tokenize text = .ok ts →
      ts ≠ [] ∧ (∃ t, ts.getLast? = some t ∧ t.type = .EOF) ∧
      ts.countP (fun t => t.type == .EOF) = 1) ∧
    (∀ text : List Char, (∀ c ∈ text, recognizedChar c = true) →
      ∃ ts, Lexer.tokenize text = .ok ts) := by
  constructor
  · intro text ts h
    obtain ⟨pre, last, rfl, hl, hpre⟩ := tokenize_shape h
    refine ⟨by simp, ⟨last, List.getLast?_concat _, hl⟩, ?_⟩
    rw [List.countP_append]
    have h0 : pre.countP (fun t => t.type == .EOF) = 0 := by
      rw [List.countP_eq_zero]
      intro u hu
      simpa using hpre u hu
    have h1 : List.countP (fun t => t.type == .EOF) [last] = 1 := by
      rw [List.countP_cons, List.countP_nil]
      simp [hl]
    omega
  · intro text hall
    exact tokenizeF_ok_of_recognized hall (by omega) (by omega)

/-- C9 witness: the shape of the result for `"12"`, and success of
`tokenize` on the recognized-only text `"1 + 2"`. -/
theorem C9_tokenize_shape_witness :
    (([⟨.NUMBER, .num (.int 12), 0⟩, ⟨.EOF, .none, 2⟩] : List Token) ≠ [] ∧
      (∃ t, ([⟨.NUMBER, .num (.int 12), 0⟩, ⟨.EOF, .none, 2⟩] : List Token).getLast? =
        some t ∧ t.type = .EOF) ∧
      ([⟨.NUMBER, .num (.int 12), 0⟩, ⟨.EOF, .none, 2⟩] : List Token).countP
        (fun t => t.type == .EOF) = 1) ∧
    ∃ ts, Lexer.tokenize "1 + 2".data = .ok ts :=
  ⟨C9_tokenize_shape.1 "12".data _ (by decide),
    C9_tokenize_shape.2 "1 + 2".data (by decide)⟩

/-- C10: for the empty string and for every whitespace-only input,
tokenizing yields exactly the EOF token (positioned at the end of the text)
and the primary-expression production then rejects it as an unexpected
token, so no AST is ever returned. -/
theorem C10_empty_input :
    ∀ s : String, (∀ c ∈ s.data, c.isWhitespace = true) →
      Lexer.tokenize s.data = .ok [⟨.EOF, .none, s.length⟩] ∧
      parse_expression_from_string s =
        .error (.unexpectedToken ⟨.EOF, .none, s.length⟩) := by
  intro s h
  have ht := tokenize_all_ws h
  refine ⟨ht, ?_⟩
  rw [parse_expression_from_string, ht]
  exact parse_eof_singleton .none s.length

/-- C10 witness for the empty string and a two-space string. -/
theorem C10_empty_input_witness :
    (Lexer.tokenize "".data = .ok [⟨.EOF, .none, 0⟩] ∧
      parse_expression_from_string "" =
        .error (.unexpectedToken ⟨.EOF, .none, 0⟩)) ∧
    (Lexer.tokenize "  ".data = .ok [⟨.EOF, .none, 2⟩] ∧
      parse_expression_from_string "  " =
        .error (.unexpectedToken ⟨.EOF, .none, 2⟩)) :=
  ⟨C10_empty_input "" (by decide), C10_empty_input "  " (by decide)⟩
